import Mathlib

/-!
Shallow embedding of the meta-learning control core of `src/algorithms.py`
(and the classifier-head models of `train_cl.py`), together with proofs about
the label/index bookkeeping, the Reptile outer update, and the error paths.

Tensors of integer labels are modelled as `List Int`; index tensors as
`List Nat`; parameter tensors (floats) as `List ℚ`.  Fallible operations
(`torch.concat` of an empty list, Python dict `KeyError`, Python arity and
name errors) return `Option`/`Except` values.
-/

/-- Kinds of Python exceptions that the code under study can raise. -/
inductive PyError where
  | notImplementedError
  | typeError
  | nameError
  deriving DecidableEq

/-- Insert an integer into a strictly increasing list, keeping it strictly
increasing (an already-present value is not duplicated). -/
def insertUnique (x : Int) : List Int → List Int
  | [] => [x]
  | y :: ys => if x < y then x :: y :: ys else if x = y then y :: ys else y :: insertUnique x ys

/-- Model of `torch.unique(t)`: the sorted list of distinct values of `t`. -/
def sortedUnique (l : List Int) : List Int := l.foldr insertUnique []

/-- Model of `tensor.max()`.  The source only calls `.max()` on nonempty
tensors (a `torch.cat` that always contains the first class batch, and the
episode's label tensor); on an empty list this model returns `0` where the
real call would raise, and every theorem below stays inside the nonempty
domain. -/
def listMax : List Int → Int
  | [] => 0
  | x :: xs => xs.foldl max x

/-- Model of `torch.where(labels == c)[0]`: the ascending list of positions
of `labels` holding value `c`. -/
def positionsOf (labels : List Int) (c : Int) : List Nat :=
  (List.range labels.length).filter (fun i => labels.getD i 0 == c)

/-- Python slicing `l[::2]` (positions 0, 2, 4, ...). -/
def takeEvens : List α → List α
  | [] => []
  | [x] => [x]
  | x :: _ :: rest => x :: takeEvens rest

/-- Python slicing `l[1::2]` (positions 1, 3, 5, ...). -/
def takeOdds : List α → List α
  | [] => []
  | [_] => []
  | _ :: y :: rest => y :: takeOdds rest

/-- `return_indexes(batch_labels, classes)` from `src/algorithms.py`: for each
class collect the positions with that label, concatenate, then reorder as
even-position entries followed by odd-position entries.  `torch.concat`
raises a `RuntimeError` when handed an empty list of tensors, which happens
exactly when `classes` is empty; that failure is modelled by `none`. -/
def return_indexes (labels : List Int) (classes : List Int) : Option (List Nat) :=
  match classes with
  | [] => none
  | _ :: _ =>
    let cat := (classes.map (positionsOf labels)).flatten
    some (takeEvens cat ++ takeOdds cat)

/-- `GradientLearningBase.split_batch` restricted to one of the two tensors it
splits: `tensor.chunk(2, dim=0)`, i.e. a first chunk of ⌈N/2⌉ rows and a
second chunk with the rest. -/
def split_batch (labels : List Int) : List Int × List Int :=
  (labels.take ((labels.length + 1) / 2), labels.drop ((labels.length + 1) / 2))

/-- Python `classes[-1] = torch.cat([classes[-1], extra])`: replace the last
entry of a nonempty list of tensors by its concatenation with `extra`. -/
def appendToLast (extra : List Int) : List (List Int) → List (List Int)
  | [] => []
  | [c] => [c ++ extra]
  | c :: c2 :: rest => c :: appendToLast extra (c2 :: rest)

/-- `FSCL.return_label_batches` from `src/algorithms.py` (the `OML` copy is
textually identical): slice the sorted unique labels into a first batch of
`n_classes_start` classes and `total_additions` further slices of
`n_class_additions` classes, then, if the maximum covered label value is
smaller than the maximum label value, append the last
`batch_labels.max() - covered.max()` unique labels to the last batch. -/
def return_label_batches (n_classes_start n_class_additions : Nat) (labels : List Int) :
    List (List Int) :=
  let unique_classes := sortedUnique labels
  let first := unique_classes.take n_classes_start
  let total_additions :=
    if n_classes_start + 1 ≤ unique_classes.length then
      (unique_classes.length - n_classes_start) / n_class_additions
    else 1
  let added := (List.range total_additions).map
    (fun i => (unique_classes.drop (n_classes_start + n_class_additions * i)).take
      n_class_additions)
  let classes := first :: added
  if listMax classes.flatten < listMax labels then
    appendToLast
      (unique_classes.drop
        (unique_classes.length - (listMax labels - listMax classes.flatten).toNat))
      classes
  else classes

/-- The per-position dict-lookup loop of `return_random_labels`; a missing
dict key (Python `KeyError`) is modelled by `none`. -/
def applyConverter (conv : Int → Option Int) : List Int → Option (List Int)
  | [] => some []
  | x :: xs =>
    match conv x, applyConverter conv xs with
    | some y, some ys => some (y :: ys)
    | _, _ => none

/-- `return_random_labels(batch_labels)` from `src/algorithms.py`.  The
randomness source `torch.randperm(u)` is taken as the explicit argument `p`
(a permutation of `0..u-1` where `u` is the number of distinct labels).  The
source builds `converter = {i: random_labels[i] for i in range(u)}` — keyed
by the dense positions `0..u-1`, not by the label values — and then looks up
`converter[int(batch_labels[i])]` for every position, so a label value
outside `0..u-1` raises `KeyError` (modelled by `none`). -/
def return_random_labels (p : List Nat) (batch_labels : List Int) : Option (List Int) :=
  let unique_labels := sortedUnique batch_labels
  let random_labels := p.map (fun i => unique_labels.getD i 0)
  applyConverter (fun v => if v < 0 then none else random_labels.get? v.toNat) batch_labels

/-- The sequence of `total_classes_present` values taken after each class
batch inside `FSCL.meta_learn` / `OML.meta_learn`: the running total of batch
sizes, starting from `acc`. -/
def headSizes (acc : Nat) : List (List Int) → List Nat
  | [] => []
  | b :: bs => (acc + b.length) :: headSizes (acc + b.length) bs

/-- One class batch's contribution to `query_labels` in `FSCL.meta_learn` /
`OML.meta_learn`: compute `return_indexes`, reorder the labels, split with
`split_batch`, keep the query half. -/
def batchQueryLabels (labels : List Int) (b : List Int) : Option (List Int) :=
  (return_indexes labels b).map
    (fun idx => (split_batch (idx.map (fun i => labels.getD i 0))).2)

/-- The accumulation of `query_labels` over all class batches (the
`torch.cat(query_labels)` of the source), failing as soon as one batch's
`return_indexes` fails. -/
def collectQueries (labels : List Int) : List (List Int) → Option (List Int)
  | [] => some []
  | b :: bs =>
    match batchQueryLabels labels b, collectQueries labels bs with
    | some q, some qs => some (q ++ qs)
    | _, _ => none

/-- The final-evaluation selection of `FSCL.meta_learn` / `OML.meta_learn`:
`testing_indexes = [torch.where(query_labels==c)[0][:5] for c in torch.unique(query_labels)]`
followed by `query_labels[torch.cat(testing_indexes)]`.  The result is the
list of selected labels; `torch.cat` of the empty list (no classes in
`query_labels`) is modelled by `none`. -/
def testingSelectionLabels (query_labels : List Int) : Option (List Int) :=
  match sortedUnique query_labels with
  | [] => none
  | u0 :: urest =>
    some (((u0 :: urest).map
      (fun c => ((positionsOf query_labels c).take 5).map
        (fun i => query_labels.getD i 0))).flatten)

/-- End-to-end data plumbing of the final query evaluation of
`FSCL.meta_learn` / `OML.meta_learn`: build the class batches, collect each
batch's query half, then apply the 5-per-class testing selection. -/
def fscl_query_selection (n_classes_start n_class_additions : Nat) (labels : List Int) :
    Option (List Int) :=
  match collectQueries labels (return_label_batches n_classes_start n_class_additions labels) with
  | none => none
  | some ql => testingSelectionLabels ql

/-- Persistent state of a `Reptile` instance: the live model's parameters
(`self.model.state_dict()`, flattened to one list of scalars) and the outer
step counter `self.outer_steps`. -/
structure ReptileState where
  params : List ℚ
  outer_steps : Nat
  deriving DecidableEq

/-- The parameters of the live model after `t` completed iterations of the
inner loop of `Reptile.meta_learn` (each `opt.step()` mutates `self.model` in
place; `inner` abstracts one such gradient step). -/
def reptile_inner_params (inner : List ℚ → List ℚ) (t : Nat) (p : List ℚ) : List ℚ :=
  inner^[t] p

/-- The Reptile outer update
`{name: old[name] + (new[name] - old[name]) * current_lr for name in old}`. -/
def reptile_interpolate (lr : ℚ) (old new : List ℚ) : List ℚ :=
  List.zipWith (fun o n => o + (n - o) * lr) old new

/-- `Reptile.meta_learn`, restricted to its effect on persistent state:
snapshot `old_weights`, run the inner loop on the live model, then either
interpolate (training, with the linearly decayed learning rate
`initial_lr * (1 - outer_steps / max_steps)`, incrementing the step counter)
or restore the snapshot (evaluation). -/
def reptile_meta_learn (training : Bool) (initial_lr : ℚ) (max_steps : Nat)
    (inner : List ℚ → List ℚ) (train_update_steps : Nat) (s : ReptileState) : ReptileState :=
  let old_weights := s.params
  let new_weights := reptile_inner_params inner train_update_steps s.params
  if training then
    let current_lr := initial_lr * (1 - (s.outer_steps : ℚ) / (max_steps : ℚ))
    { params := reptile_interpolate current_lr old_weights new_weights,
      outer_steps := s.outer_steps + 1 }
  else
    { params := old_weights, outer_steps := s.outer_steps }

/-- Episode-local state of the MAML-style variants (`VanillaMAML`, `FSCL`,
`OML`): the persistent model parameters and the parameters of the clone
produced by `self.model.clone()`. -/
structure CloneEpisode where
  model : List ℚ
  learner : List ℚ

/-- `learner = self.model.clone()` at the start of `meta_learn`. -/
def clone_init (p : List ℚ) : CloneEpisode := { model := p, learner := p }

/-- One `learner.adapt(loss)` step: only the clone's parameters change. -/
def clone_adapt (inner : List ℚ → List ℚ) (st : CloneEpisode) : CloneEpisode :=
  { st with learner := inner st.learner }

/-- The episode state after `t` adaptation steps of a MAML-style
`meta_learn`, starting from persistent parameters `p`. -/
def clone_run (inner : List ℚ → List ℚ) (t : Nat) (p : List ℚ) : CloneEpisode :=
  (clone_adapt inner)^[t] (clone_init p)

/-- A call of `GradientLearningBase.meta_learn` (defined as
`def meta_learn(self): raise NotImplementedError(...)`) with `nargs` extra
positional arguments: Python first checks the arity (`TypeError` when any
extra argument is passed, since the definition takes only `self`), and only a
matching call reaches the body's `NotImplementedError`. -/
def base_meta_learn (nargs : Nat) : Except PyError Unit :=
  if nargs = 0 then Except.error PyError.notImplementedError
  else Except.error PyError.typeError

/-- `GradientLearningBase.training_step` invokes `self.meta_learn(batch)` —
one extra positional argument — exactly once, and any exception propagates. -/
def base_training_step : Except PyError Unit := base_meta_learn 1

/-- `GradientLearningBase.validation_step` also invokes
`self.meta_learn(batch)` exactly once. -/
def base_validation_step : Except PyError Unit := base_meta_learn 1

/-- `FSCLModel.forward` from `train_cl.py`, abstracting each classification
head to a scalar function: logits are the concatenation of
`self.classifiers[c](features)` for `c in range(total_classes_present)`;
indexing a head beyond `len(self.classifiers)` raises `IndexError`
(modelled by `none`). -/
def fsclModel_forward (classifiers : List (ℚ → ℚ)) (total_classes_present : Nat)
    (features : ℚ) : Option (List ℚ) :=
  if total_classes_present ≤ classifiers.length then
    some ((classifiers.take total_classes_present).map (fun h => h features))
  else none

/-- `OMLModel.forward` from `train_cl.py`: the logit loop runs over
`range(len(self.classifiers))`, so every head is applied and the
`total_classes_present` argument does not influence the logits' width. -/
def omlModel_forward (classifiers : List (ℚ → ℚ)) (total_classes_present : Nat)
    (features : ℚ) : List ℚ :=
  classifiers.map (fun h => h features)

/-- The global names available inside `src/algorithms.py`: its imports
(line 1-7) and its module-level definitions. -/
def algorithms_module_globals : List String :=
  ["deepcopy", "MAML", "pl", "torch", "F",
   "return_random_labels", "return_indexes",
   "GradientLearningBase", "VanillaMAML", "Reptile", "FSCL", "OML"]

/-- `VanillaMAML.__init__`: after the `super().__init__` call it evaluates
`l2l.algorithms.MAML(...)`, which resolves the global name `l2l`; the module
imports only `MAML` from `learn2learn.algorithms` and never binds `l2l`, so
the lookup raises `NameError`. -/
def vanillaMAML_init : Except PyError Unit :=
  if ("l2l") ∈ algorithms_module_globals then Except.ok ()
  else Except.error PyError.nameError

/-! ### Facts about `sortedUnique` -/

theorem mem_insertUnique {a x : Int} : ∀ {l : List Int}, a ∈ insertUnique x l ↔ a = x ∨ a ∈ l
  | [] => by simp [insertUnique]
  | y :: ys => by
    simp only [insertUnique]
    split_ifs with h1 h2
    · simp
    · subst h2; simp [List.mem_cons]
    · simp only [List.mem_cons, mem_insertUnique (l := ys)]; tauto

theorem mem_sortedUnique {a : Int} : ∀ {l : List Int}, a ∈ sortedUnique l ↔ a ∈ l
  | [] => by simp [sortedUnique]
  | x :: xs => by
    simp only [sortedUnique, List.foldr_cons]
    rw [show xs.foldr insertUnique [] = sortedUnique xs from rfl]
    rw [mem_insertUnique, mem_sortedUnique (l := xs), List.mem_cons]

theorem pairwise_insertUnique {x : Int} :
    ∀ {l : List Int}, l.Pairwise (· < ·) → (insertUnique x l).Pairwise (· < ·)
  | [], _ => by simp [insertUnique]
  | y :: ys, h => by
    have hy : ∀ b ∈ ys, y < b := (List.pairwise_cons.mp h).1
    have hys : ys.Pairwise (· < ·) := (List.pairwise_cons.mp h).2
    simp only [insertUnique]
    split_ifs with h1 h2
    · exact List.pairwise_cons.mpr ⟨by
        intro b hb
        rcases List.mem_cons.mp hb with hb | hb
        · exact hb ▸ h1
        · exact lt_trans h1 (hy b hb), h⟩
    · exact h
    · have hx : y < x := by omega
      refine List.pairwise_cons.mpr ⟨?_, pairwise_insertUnique hys⟩
      intro b hb
      rcases mem_insertUnique.mp hb with hb | hb
      · exact hb ▸ hx
      · exact hy b hb

theorem sortedUnique_pairwise : ∀ l : List Int, (sortedUnique l).Pairwise (· < ·)
  | [] => by simp [sortedUnique]
  | x :: xs => by
    have := sortedUnique_pairwise xs
    simpa [sortedUnique] using pairwise_insertUnique (x := x) this

theorem sortedUnique_nodup (l : List Int) : (sortedUnique l).Nodup :=
  (sortedUnique_pairwise l).imp (fun h => ne_of_lt h)

theorem insertUnique_ne_nil (x : Int) (l : List Int) : insertUnique x l ≠ [] := by
  cases l with
  | nil => simp [insertUnique]
  | cons y ys =>
    simp only [insertUnique]
    split_ifs <;> simp

theorem sortedUnique_eq_nil_iff {l : List Int} : sortedUnique l = [] ↔ l = [] := by
  cases l with
  | nil => simp [sortedUnique]
  | cons x xs =>
    simp only [sortedUnique, List.foldr_cons]
    constructor
    · intro h; exact absurd h (insertUnique_ne_nil x _)
    · intro h; exact absurd h (by simp)

/-! ### Facts about `listMax` -/

theorem le_foldl_max : ∀ (xs : List Int) (a : Int),
    a ≤ xs.foldl max a ∧ ∀ b ∈ xs, b ≤ xs.foldl max a
  | [], a => by simp
  | x :: xs, a => by
    have ih := le_foldl_max xs (max a x)
    simp only [List.foldl_cons]
    constructor
    · exact le_trans (le_max_left a x) ih.1
    · intro b hb
      rcases List.mem_cons.mp hb with hb | hb
      · rw [hb]; exact le_trans (le_max_right a x) ih.1
      · exact ih.2 b hb

theorem foldl_max_mem : ∀ (xs : List Int) (a : Int),
    xs.foldl max a = a ∨ xs.foldl max a ∈ xs
  | [], a => Or.inl rfl
  | x :: xs, a => by
    simp only [List.foldl_cons]
    rcases foldl_max_mem xs (max a x) with h | h
    · rcases max_choice a x with hc | hc
      · left; rw [h, hc]
      · right; rw [h, hc]; exact List.mem_cons_self x xs
    · right; exact List.mem_cons_of_mem x h

theorem le_listMax {l : List Int} {b : Int} (hb : b ∈ l) : b ≤ listMax l := by
  cases l with
  | nil => simp at hb
  | cons x xs =>
    rcases List.mem_cons.mp hb with h | h
    · exact h ▸ (le_foldl_max xs x).1
    · exact (le_foldl_max xs x).2 b h

theorem listMax_mem {l : List Int} (h : l ≠ []) : listMax l ∈ l := by
  cases l with
  | nil => exact absurd rfl h
  | cons x xs =>
    show xs.foldl max x ∈ x :: xs
    rcases foldl_max_mem xs x with h2 | h2
    · rw [h2]; exact List.mem_cons_self x xs
    · exact List.mem_cons_of_mem x h2

theorem listMax_sortedUnique (l : List Int) (h : l ≠ []) :
    listMax (sortedUnique l) = listMax l := by
  have hne : sortedUnique l ≠ [] := fun hc => h (sortedUnique_eq_nil_iff.mp hc)
  refine le_antisymm ?_ ?_
  · exact le_listMax (mem_sortedUnique.mp (listMax_mem hne))
  · exact le_listMax (mem_sortedUnique.mpr (listMax_mem h))

theorem listMax_append_single (l : List Int) (x : Int) (h : l ≠ []) :
    listMax (l ++ [x]) = max (listMax l) x := by
  cases l with
  | nil => exact absurd rfl h
  | cons a l' =>
    show (l' ++ [x]).foldl max a = max (l'.foldl max a) x
    rw [List.foldl_append]
    rfl

theorem listMax_range_map : ∀ c : Nat, listMax ((List.range (c + 1)).map Int.ofNat) = (c : Int)
  | 0 => by decide
  | c + 1 => by
    have h1 : (List.range (c + 1 + 1)).map Int.ofNat
        = (List.range (c + 1)).map Int.ofNat ++ [Int.ofNat (c + 1)] := by
      rw [List.range_succ]; simp
    rw [h1, listMax_append_single _ _ (by simp), listMax_range_map c]
    rw [max_eq_right (by exact Int.ofNat_le.mpr (Nat.le_succ c))]
    simp

/-! ### Facts about `positionsOf` -/

theorem list_filter_map (f : α → β) (p : β → Bool) :
    ∀ l : List α, (l.map f).filter p = (l.filter (fun a => p (f a))).map f
  | [] => rfl
  | x :: xs => by
    simp only [List.map_cons, List.filter_cons]
    by_cases h : p (f x)
    · simp [h, list_filter_map f p xs]
    · simp [h, list_filter_map f p xs]

theorem positionsOf_cons (x : Int) (xs : List Int) (c : Int) :
    positionsOf (x :: xs) c
      = (if x = c then [0] else []) ++ (positionsOf xs c).map (fun i => i + 1) := by
  unfold positionsOf
  rw [show (x :: xs).length = xs.length + 1 from rfl, List.range_succ_eq_map, List.filter_cons]
  have hsucc : List.map Nat.succ (List.range xs.length)
      = (List.range xs.length).map (fun i => i + 1) := by
    simp [Nat.succ_eq_add_one]
  rw [hsucc, list_filter_map]
  have hgd : (fun i => (x :: xs).getD (i + 1) 0 == c) = (fun i => xs.getD i 0 == c) := by
    funext i; rfl
  have hgd0 : (x :: xs).getD 0 0 = x := rfl
  rw [hgd0]
  by_cases h : x = c
  · simp [h, hgd]
  · simp [h, hgd]

theorem positionsOf_length (labels : List Int) (c : Int) :
    (positionsOf labels c).length = labels.count c := by
  induction labels with
  | nil => rfl
  | cons x xs ih =>
    rw [positionsOf_cons, List.length_append, List.length_map, ih, List.count_cons]
    by_cases h : x = c <;> simp [h, Nat.add_comm]

theorem positionsOf_getD (labels : List Int) (c : Int) :
    ∀ i ∈ positionsOf labels c, labels.getD i 0 = c := by
  intro i hi
  have := List.mem_filter.mp hi
  exact beq_iff_eq.mp this.2

/-! ### Facts about `takeEvens` and `takeOdds` -/

theorem takeEvens_cons_cons (x y : α) (l : List α) :
    takeEvens (x :: y :: l) = x :: takeEvens l := rfl

theorem takeOdds_cons_cons (x y : α) (l : List α) :
    takeOdds (x :: y :: l) = y :: takeOdds l := rfl

theorem takeEvens_append : ∀ (a : List α), a.length % 2 = 0 →
    ∀ b, takeEvens (a ++ b) = takeEvens a ++ takeEvens b
  | [], _, b => rfl
  | [x], h, b => by simp at h
  | x :: y :: rest, h, b => by
    have hr : rest.length % 2 = 0 := by simp only [List.length_cons] at h; omega
    simp only [List.cons_append, takeEvens_cons_cons]
    rw [takeEvens_append rest hr b]

theorem takeOdds_append : ∀ (a : List α), a.length % 2 = 0 →
    ∀ b, takeOdds (a ++ b) = takeOdds a ++ takeOdds b
  | [], _, b => rfl
  | [x], h, b => by simp at h
  | x :: y :: rest, h, b => by
    have hr : rest.length % 2 = 0 := by simp only [List.length_cons] at h; omega
    simp only [List.cons_append, takeOdds_cons_cons]
    rw [takeOdds_append rest hr b]

theorem takeEvens_length : ∀ l : List α, (takeEvens l).length = (l.length + 1) / 2
  | [] => by simp [takeEvens]
  | [x] => by simp [takeEvens]
  | x :: y :: rest => by
    simp only [takeEvens_cons_cons, List.length_cons]
    rw [takeEvens_length rest]
    omega

theorem takeOdds_length : ∀ l : List α, (takeOdds l).length = l.length / 2
  | [] => by simp [takeOdds]
  | [x] => by simp [takeOdds]
  | x :: y :: rest => by
    simp only [takeOdds_cons_cons, List.length_cons]
    rw [takeOdds_length rest]
    omega

theorem takeEvens_subset : ∀ (l : List α) (a : α), a ∈ takeEvens l → a ∈ l
  | [], a, h => by simp [takeEvens] at h
  | [x], a, h => by simpa [takeEvens] using h
  | x :: y :: rest, a, h => by
    rw [takeEvens_cons_cons] at h
    rcases List.mem_cons.mp h with h | h
    · exact h ▸ List.mem_cons_self x (y :: rest)
    · exact List.mem_cons_of_mem x (List.mem_cons_of_mem y (takeEvens_subset rest a h))

theorem takeOdds_subset : ∀ (l : List α) (a : α), a ∈ takeOdds l → a ∈ l
  | [], a, h => by simp [takeOdds] at h
  | [x], a, h => by simp [takeOdds] at h
  | x :: y :: rest, a, h => by
    rw [takeOdds_cons_cons] at h
    rcases List.mem_cons.mp h with h | h
    · rw [h]; exact List.mem_cons_of_mem x (List.mem_cons_self y rest)
    · exact List.mem_cons_of_mem x (List.mem_cons_of_mem y (takeOdds_subset rest a h))

theorem takeEvens_flatten : ∀ L : List (List α), (∀ r ∈ L, r.length % 2 = 0) →
    takeEvens L.flatten = (L.map takeEvens).flatten
  | [], _ => rfl
  | r :: L, h => by
    simp only [List.flatten_cons, List.map_cons]
    rw [takeEvens_append r (h r (List.mem_cons_self r L)) L.flatten]
    rw [takeEvens_flatten L (fun s hs => h s (List.mem_cons_of_mem r hs))]

theorem takeOdds_flatten : ∀ L : List (List α), (∀ r ∈ L, r.length % 2 = 0) →
    takeOdds L.flatten = (L.map takeOdds).flatten
  | [], _ => rfl
  | r :: L, h => by
    simp only [List.flatten_cons, List.map_cons]
    rw [takeOdds_append r (h r (List.mem_cons_self r L)) L.flatten]
    rw [takeOdds_flatten L (fun s hs => h s (List.mem_cons_of_mem r hs))]

/-! ### Small list utilities -/

theorem map_eq_replicate_of_mem {f : α → β} {c : β} :
    ∀ {l : List α}, (∀ x ∈ l, f x = c) → l.map f = List.replicate l.length c
  | [], _ => rfl
  | x :: xs, h => by
    simp only [List.map_cons, List.length_cons, List.replicate_succ]
    rw [h x (List.mem_cons_self x xs),
      map_eq_replicate_of_mem (fun y hy => h y (List.mem_cons_of_mem x hy))]

theorem count_flatten_replicate (k : Nat) (c : Int) :
    ∀ b : List Int, ((b.map (fun d => List.replicate k d)).flatten).count c = k * b.count c
  | [] => by simp
  | d :: b => by
    simp only [List.map_cons, List.flatten_cons, List.count_append, List.count_cons]
    rw [count_flatten_replicate k c b, List.count_replicate]
    by_cases h : d = c
    · simp only [h, beq_self_eq_true, if_pos]
      ring
    · have hb : (d == c) = false := by simpa using h
      simp [hb]

theorem mem_flatten_replicate {k : Nat} (hk : k ≠ 0) (b : List Int) (x : Int) :
    x ∈ (b.map (fun d => List.replicate k d)).flatten ↔ x ∈ b := by
  simp only [List.mem_flatten, List.mem_map]
  constructor
  · rintro ⟨l, ⟨d, hd, rfl⟩, hx⟩
    rcases List.mem_replicate.mp hx with ⟨-, rfl⟩
    exact hd
  · intro hx
    exact ⟨List.replicate k x, ⟨x, hx, rfl⟩, List.mem_replicate.mpr ⟨hk, rfl⟩⟩

/-! ### Facts about `appendToLast` and slicing -/

theorem appendToLast_flatten (extra : List Int) : ∀ L : List (List Int), L ≠ [] →
    (appendToLast extra L).flatten = L.flatten ++ extra
  | [], h => absurd rfl h
  | [c], _ => by simp [appendToLast]
  | c :: c2 :: rest, _ => by
    simp only [appendToLast, List.flatten_cons]
    rw [appendToLast_flatten extra (c2 :: rest) (by simp)]
    simp [List.append_assoc]

theorem appendToLast_cons_cons (extra : List Int) (c c2 : List Int) (rest : List (List Int)) :
    appendToLast extra (c :: c2 :: rest) = c :: appendToLast extra (c2 :: rest) := rfl

theorem appendToLast_length (extra : List Int) : ∀ L : List (List Int),
    (appendToLast extra L).length = L.length
  | [] => rfl
  | [c] => rfl
  | c :: c2 :: rest => by
    simp only [appendToLast, List.length_cons]
    rw [appendToLast_length extra (c2 :: rest)]
    simp

theorem appendToLast_ne_nil (extra : List Int) : ∀ L : List (List Int),
    (∀ b ∈ L, b ≠ []) → ∀ b ∈ appendToLast extra L, b ≠ []
  | [], _ => by simp [appendToLast]
  | [c], h => by
    intro b hb
    simp only [appendToLast, List.mem_singleton] at hb
    subst hb
    intro hc
    exact h c (List.mem_singleton.mpr rfl) (List.append_eq_nil.mp hc).1
  | c :: c2 :: rest, h => by
    intro b hb
    rw [appendToLast_cons_cons] at hb
    rcases List.mem_cons.mp hb with hb | hb
    · exact hb ▸ h c (List.mem_cons_self c (c2 :: rest))
    · exact appendToLast_ne_nil extra (c2 :: rest)
        (fun s hs => h s (List.mem_cons_of_mem c hs)) b hb

theorem flatten_slices : ∀ (T : Nat) (l : List Int) (k : Nat),
    ((List.range T).map (fun i => (l.drop (k * i)).take k)).flatten = l.take (k * T)
  | 0, l, k => by simp
  | T + 1, l, k => by
    rw [List.range_succ, List.map_append, List.flatten_append, flatten_slices T l k]
    simp only [List.map_cons, List.map_nil, List.flatten_cons, List.flatten_nil,
      List.append_nil]
    rw [Nat.mul_succ, List.take_add]

/-! ### The two regimes of `return_label_batches` -/

/-- When the number of distinct classes equals `n_classes_start`,
`total_additions` is forced to 1 and the loop appends one empty slice, so the
result is the full class set followed by an empty trailing batch. -/
theorem return_label_batches_trailing_empty (n_start n_add : Nat) (labels : List Int)
    (hns : 1 ≤ n_start) (hu : (sortedUnique labels).length = n_start) :
    return_label_batches n_start n_add labels = [sortedUnique labels, []] := by
  have hdrop : (sortedUnique labels).drop n_start = [] := by
    rw [← hu]; exact List.drop_length _
  have hfirst : (sortedUnique labels).take n_start = sortedUnique labels := by
    rw [← hu]; exact List.take_length _
  have hlne : labels ≠ [] := by
    intro h
    rw [h] at hu
    simp [sortedUnique] at hu
    omega
  have hcond : ¬ (n_start + 1 ≤ (sortedUnique labels).length) := by omega
  simp only [return_label_batches, if_neg hcond]
  have hadd : (List.range 1).map
      (fun i => ((sortedUnique labels).drop (n_start + n_add * i)).take n_add) = [[]] := by
    rw [show List.range 1 = [0] from rfl]
    simp [hdrop]
  rw [hadd, hfirst]
  have hflat : ([sortedUnique labels, ([] : List Int)]).flatten = sortedUnique labels := by simp
  rw [hflat, listMax_sortedUnique labels hlne, if_neg (lt_irrefl _)]

/-- When the distinct classes are the consecutive values `0..u-1` and
`u ≥ n_classes_start + n_class_additions`, `return_label_batches` produces
batches whose concatenation is exactly the sorted unique class list, whose
first batch is the first `n_classes_start` classes, and all of which are
nonempty. -/
theorem return_label_batches_spec (n_start n_add : Nat) (labels : List Int)
    (hns : 1 ≤ n_start) (hna : 1 ≤ n_add)
    (hU : sortedUnique labels = (List.range (sortedUnique labels).length).map Int.ofNat)
    (hcnt : n_start + n_add ≤ (sortedUnique labels).length) :
    (return_label_batches n_start n_add labels).flatten = sortedUnique labels ∧
      (return_label_batches n_start n_add labels).headD []
        = (sortedUnique labels).take n_start ∧
      (∀ b ∈ return_label_batches n_start n_add labels, b ≠ []) := by
  obtain ⟨u, hu⟩ : ∃ u, (sortedUnique labels).length = u := ⟨_, rfl⟩
  rw [hu] at hU hcnt
  have hune : 1 ≤ u := by omega
  have hlne : labels ≠ [] := by
    intro h
    rw [h] at hu
    simp [sortedUnique] at hu
    omega
  have h3 : u - 1 + 1 = u := by omega
  have hlmW : listMax ((List.range u).map Int.ofNat) = ((u - 1 : Nat) : Int) := by
    have h4 := listMax_range_map (u - 1)
    rwa [h3] at h4
  have hlm : listMax labels = ((u - 1 : Nat) : Int) := by
    rw [← listMax_sortedUnique labels hlne, hU, hlmW]
  have hcond : n_start + 1 ≤ u := by omega
  simp only [return_label_batches, hU, List.length_map, List.length_range, if_pos hcond]
  set W := (List.range u).map Int.ofNat with hW
  have hWlen : W.length = u := by rw [hW]; simp
  set T := (u - n_start) / n_add with hT
  have hT1 : 1 ≤ T := by
    rw [hT]
    exact (Nat.le_div_iff_mul_le (by omega)).mpr (by omega)
  have hdm := Nat.div_add_mod (u - n_start) n_add
  rw [← hT] at hdm
  set r := (u - n_start) % n_add with hr
  have hcovu : n_start + n_add * T + r = u := by omega
  have hcov_le : n_start + n_add * T ≤ u := by omega
  have hcovpos : 1 ≤ n_start + n_add * T := by omega
  have hfun : (fun i => (W.drop (n_start + n_add * i)).take n_add)
      = (fun i => ((W.drop n_start).drop (n_add * i)).take n_add) := by
    funext i
    rw [List.drop_drop]
  have haf : ((List.range T).map (fun i => (W.drop (n_start + n_add * i)).take n_add)).flatten
      = (W.drop n_start).take (n_add * T) := by
    rw [hfun]
    exact flatten_slices T (W.drop n_start) n_add
  have hclflat : (W.take n_start :: (List.range T).map
      (fun i => (W.drop (n_start + n_add * i)).take n_add)).flatten
      = W.take (n_start + n_add * T) := by
    rw [List.flatten_cons, haf, ← List.take_add]
  have hWtake : ∀ c : Nat, c ≤ u → W.take c = (List.range c).map Int.ofNat := by
    intro c hc
    rw [hW, ← List.map_take, List.take_range, min_eq_left hc]
  have hbase : ∀ b ∈ (W.take n_start :: (List.range T).map
      (fun i => (W.drop (n_start + n_add * i)).take n_add)), b ≠ [] := by
    intro b hb
    rcases List.mem_cons.mp hb with hb | hb
    · rw [hb, ← List.length_pos, List.length_take, hWlen]
      omega
    · obtain ⟨i, hi, rfl⟩ := List.mem_map.mp hb
      have hiT : i < T := List.mem_range.mp hi
      have hmul : n_add * i + n_add ≤ n_add * T := by
        have h7 : n_add * (i + 1) ≤ n_add * T := Nat.mul_le_mul_left n_add hiT
        calc n_add * i + n_add = n_add * (i + 1) := by ring
          _ ≤ n_add * T := h7
      have hpos : n_start + n_add * i < u := by omega
      rw [← List.length_pos, List.length_take, List.length_drop, hWlen]
      omega
  by_cases hrz : r = 0
  · have hcov : n_start + n_add * T = u := by omega
    have hWall : W.take (n_start + n_add * T) = W := by
      rw [hcov, ← hWlen]
      exact List.take_length W
    have hlmWW : listMax W = ((u - 1 : Nat) : Int) := by rw [hW]; exact hlmW
    rw [hclflat, hWall, hlm, hlmWW, if_neg (lt_irrefl _)]
    refine ⟨?_, rfl, hbase⟩
    rw [hclflat, hWall]
  · have hcovlt : n_start + n_add * T < u := by omega
    have hlmcov : listMax (W.take (n_start + n_add * T))
        = ((n_start + n_add * T - 1 : Nat) : Int) := by
      rw [hWtake _ hcov_le]
      have h4 : n_start + n_add * T - 1 + 1 = n_start + n_add * T := by omega
      have h5 := listMax_range_map (n_start + n_add * T - 1)
      rwa [h4] at h5
    rw [hclflat, hlm, hlmcov, if_pos (Int.ofNat_lt.mpr (by omega))]
    have hmiss : (((u - 1 : Nat) : Int) - ((n_start + n_add * T - 1 : Nat) : Int)).toNat
        = u - (n_start + n_add * T) := by omega
    rw [hmiss]
    have hdrop_eq : u - (u - (n_start + n_add * T)) = n_start + n_add * T := by omega
    rw [hdrop_eq]
    obtain ⟨a0, rest, hrest⟩ :=
      List.exists_cons_of_ne_nil (l := (List.range T).map
        (fun i => (W.drop (n_start + n_add * i)).take n_add))
        (by
          intro hnil
          have := congrArg List.length hnil
          simp at this
          omega)
    refine ⟨?_, ?_, ?_⟩
    · rw [appendToLast_flatten _ _ (by simp), hclflat, List.take_append_drop]
    · rw [hrest, appendToLast_cons_cons]
      rfl
    · exact appendToLast_ne_nil _ _ hbase

/-! ### Claim C1 -/

/-- C1, counterexample: the label tensor `[0, 1, 2]` has 3 ≥ `n_classes_start = 2`
distinct classes, but with `n_class_additions = 2` the remainder class is
appended to the first (and only) batch, which therefore has 3 classes instead
of exactly `n_classes_start`.  This refutes the claim that the first batch
always has exactly `n_classes_start` classes. -/
theorem C1_label_batches_counterexample :
    2 ≤ (sortedUnique [0, 1, 2]).length ∧
      ((return_label_batches 2 2 [0, 1, 2]).headD []).length ≠ 2 := by decide

/-- Shared partition lemma covering both regimes of `return_label_batches`. -/
theorem label_batches_partition_full (n_start n_add : Nat) (labels : List Int)
    (hns : 1 ≤ n_start) (hna : 1 ≤ n_add)
    (hU : sortedUnique labels = (List.range (sortedUnique labels).length).map Int.ofNat)
    (hcnt : (sortedUnique labels).length = n_start
      ∨ n_start + n_add ≤ (sortedUnique labels).length) :
    (return_label_batches n_start n_add labels).flatten = sortedUnique labels ∧
      (∀ x : Int, x ∈ (return_label_batches n_start n_add labels).flatten ↔ x ∈ labels) ∧
      List.Pairwise List.Disjoint (return_label_batches n_start n_add labels) ∧
      ((return_label_batches n_start n_add labels).headD []).length = n_start := by
  rcases hcnt with hcnt | hcnt
  · rw [return_label_batches_trailing_empty n_start n_add labels hns hcnt]
    refine ⟨by simp, ?_, ?_, ?_⟩
    · intro x
      simp [mem_sortedUnique]
    · refine List.pairwise_cons.mpr ⟨?_, List.pairwise_singleton _ _⟩
      intro l hl
      rw [List.mem_singleton.mp hl]
      intro a _ ha
      exact absurd ha (List.not_mem_nil a)
    · simp [hcnt]
  · obtain ⟨hf, hh, hne⟩ := return_label_batches_spec n_start n_add labels hns hna hU hcnt
    have hnd : (return_label_batches n_start n_add labels).flatten.Nodup := by
      rw [hf]; exact sortedUnique_nodup labels
    refine ⟨hf, ?_, (List.nodup_flatten.mp hnd).2, ?_⟩
    · intro x
      rw [hf, mem_sortedUnique]
    · rw [hh, List.length_take]
      exact min_eq_left (by omega)

/-- C1 (amended): for an episode whose distinct labels are the consecutive
values `0..u-1`, with `u = n_classes_start` or
`u ≥ n_classes_start + n_class_additions`, `return_label_batches` returns an
ordered partition of the unique labels: the concatenation of the batches is
exactly the sorted unique label list (so their union is the full class set,
with remainder classes appended to the last batch rather than dropped), the
batches are pairwise disjoint, and the first batch has exactly
`n_classes_start` classes. -/
theorem C1_label_batches_partition (n_start n_add : Nat) (labels : List Int)
    (hns : 1 ≤ n_start) (hna : 1 ≤ n_add)
    (hU : sortedUnique labels = (List.range (sortedUnique labels).length).map Int.ofNat)
    (hcnt : (sortedUnique labels).length = n_start
      ∨ n_start + n_add ≤ (sortedUnique labels).length) :
    (return_label_batches n_start n_add labels).flatten = sortedUnique labels ∧
      (∀ x : Int, x ∈ (return_label_batches n_start n_add labels).flatten ↔ x ∈ labels) ∧
      List.Pairwise List.Disjoint (return_label_batches n_start n_add labels) ∧
      ((return_label_batches n_start n_add labels).headD []).length = n_start :=
  label_batches_partition_full n_start n_add labels hns hna hU hcnt

/-- C1, witness: a concrete episode with 4 consecutive classes,
`n_classes_start = 2`, `n_class_additions = 2`. -/
theorem C1_label_batches_witness :
    (return_label_batches 2 2 [3, 0, 1, 2, 0]).flatten = sortedUnique [3, 0, 1, 2, 0] ∧
      (∀ x : Int, x ∈ (return_label_batches 2 2 [3, 0, 1, 2, 0]).flatten
        ↔ x ∈ ([3, 0, 1, 2, 0] : List Int)) ∧
      List.Pairwise List.Disjoint (return_label_batches 2 2 [3, 0, 1, 2, 0]) ∧
      ((return_label_batches 2 2 [3, 0, 1, 2, 0]).headD []).length = 2 :=
  C1_label_batches_partition 2 2 [3, 0, 1, 2, 0] (by decide) (by decide) (by decide)
    (Or.inr (by decide))

/-! ### Facts about `headSizes` -/

theorem headSizes_getElem : ∀ (bs : List (List Int)) (acc i : Nat)
    (h : i < (headSizes acc bs).length),
    (headSizes acc bs)[i] = acc + ((bs.take (i + 1)).map List.length).sum
  | [], acc, i, h => by simp [headSizes] at h
  | b :: bs, acc, 0, h => by simp [headSizes]
  | b :: bs, acc, i + 1, h => by
    have h2 : i < (headSizes (acc + b.length) bs).length := by
      simpa [headSizes] using h
    show (headSizes (acc + b.length) bs)[i] = _
    rw [headSizes_getElem bs (acc + b.length) i h2]
    simp [List.take_succ_cons]
    omega

theorem headSizes_le_of_mem : ∀ (bs : List (List Int)) (acc x : Nat),
    x ∈ headSizes acc bs → acc ≤ x
  | [], acc, x, h => by simp [headSizes] at h
  | b :: bs, acc, x, h => by
    rcases List.mem_cons.mp h with h | h
    · omega
    · have := headSizes_le_of_mem bs (acc + b.length) x h
      omega

theorem headSizes_mono : ∀ (bs : List (List Int)) (acc : Nat),
    List.Pairwise (· ≤ ·) (headSizes acc bs)
  | [], acc => by simp [headSizes]
  | b :: bs, acc => by
    refine List.pairwise_cons.mpr ⟨?_, headSizes_mono bs (acc + b.length)⟩
    intro y hy
    have := headSizes_le_of_mem bs (acc + b.length) y hy
    omega

theorem headSizes_le_sum : ∀ (bs : List (List Int)) (acc x : Nat),
    x ∈ headSizes acc bs → x ≤ acc + (bs.map List.length).sum
  | [], acc, x, h => by simp [headSizes] at h
  | b :: bs, acc, x, h => by
    rcases List.mem_cons.mp h with h | h
    · simp only [List.map_cons, List.sum_cons]
      omega
    · have := headSizes_le_sum bs (acc + b.length) x h
      simp only [List.map_cons, List.sum_cons]
      omega

/-! ### Claim C3 -/

/-- C3, counterexample: in the episode `[0, 1, 2, 3]` with
`n_classes_start = 2`, `n_class_additions = 2`, the value of
`total_classes_present` after the first class batch is 2, but
`OMLModel.forward` computes its logits from all `len(self.classifiers)` = 4
heads regardless of `total_classes_present`, so the number of class heads
used to compute logits is 4 ≠ 2.  This refutes the claimed identification of
`total_classes_present` with the number of heads used for the logits in
`OML.meta_learn`. -/
theorem C3_head_size_counterexample :
    headSizes 0 (return_label_batches 2 2 [0, 1, 2, 3]) = [2, 4] ∧
      (omlModel_forward (List.replicate 4 (fun x : ℚ => x)) 2 0).length ≠ 2 := by
  constructor
  · decide
  · simp [omlModel_forward]

/-- C3 (amended): in `FSCL.meta_learn` and `OML.meta_learn` over an episode
with consecutive classes `0..u-1`, `u = n_classes_start` or
`u ≥ n_classes_start + n_class_additions`, and `u ≤ n_way`: after processing
class batch `i` the value `total_classes_present` equals the sum of the class
counts of batches `0..i`; it is monotonically non-decreasing and never
exceeds `n_way`.  In FSCL the logits are computed from exactly
`total_classes_present` heads (which therefore stays within the `n_way`
heads of `FSCLModel`); in OML, `OMLModel.forward` ignores
`total_classes_present` and always uses all of its heads. -/
theorem C3_head_size_invariant (n_start n_add n_way : Nat) (labels : List Int)
    (hns : 1 ≤ n_start) (hna : 1 ≤ n_add)
    (hU : sortedUnique labels = (List.range (sortedUnique labels).length).map Int.ofNat)
    (hcnt : (sortedUnique labels).length = n_start
      ∨ n_start + n_add ≤ (sortedUnique labels).length)
    (hw : (sortedUnique labels).length ≤ n_way) :
    (∀ i : Nat, ∀ h : i < (headSizes 0 (return_label_batches n_start n_add labels)).length,
      (headSizes 0 (return_label_batches n_start n_add labels))[i]
        = (((return_label_batches n_start n_add labels).take (i + 1)).map List.length).sum) ∧
      List.Pairwise (· ≤ ·) (headSizes 0 (return_label_batches n_start n_add labels)) ∧
      (∀ x ∈ headSizes 0 (return_label_batches n_start n_add labels), x ≤ n_way) ∧
      (∀ classifiers : List (ℚ → ℚ), classifiers.length = n_way →
        ∀ x ∈ headSizes 0 (return_label_batches n_start n_add labels), ∀ f : ℚ,
          ∃ out, fsclModel_forward classifiers x f = some out ∧ out.length = x) ∧
      (∀ classifiers : List (ℚ → ℚ), ∀ t : Nat, ∀ f : ℚ,
        (omlModel_forward classifiers t f).length = classifiers.length) := by
  have hflat : (return_label_batches n_start n_add labels).flatten = sortedUnique labels :=
    (label_batches_partition_full n_start n_add labels hns hna hU hcnt).1
  have hsum : ((return_label_batches n_start n_add labels).map List.length).sum
      = (sortedUnique labels).length := by
    rw [← List.length_flatten, hflat]
  have hbound : ∀ x ∈ headSizes 0 (return_label_batches n_start n_add labels), x ≤ n_way := by
    intro x hx
    have := headSizes_le_sum _ 0 x hx
    omega
  refine ⟨?_, headSizes_mono _ 0, hbound, ?_, ?_⟩
  · intro i h
    have := headSizes_getElem (return_label_batches n_start n_add labels) 0 i h
    omega
  · intro classifiers hcl x hx f
    have hxle : x ≤ classifiers.length := by rw [hcl]; exact hbound x hx
    refine ⟨(classifiers.take x).map (fun h => h f), ?_, ?_⟩
    · simp [fsclModel_forward, if_pos hxle]
    · rw [List.length_map, List.length_take]
      exact min_eq_left hxle
  · intro classifiers t f
    simp [omlModel_forward]

/-- C3, witness: episode `[0, 0, 1, 1, 2, 2]`, `n_classes_start = 2`,
`n_class_additions = 1`, `n_way = 3`. -/
theorem C3_head_size_witness :
    (∀ i : Nat, ∀ h : i < (headSizes 0 (return_label_batches 2 1 [0, 0, 1, 1, 2, 2])).length,
      (headSizes 0 (return_label_batches 2 1 [0, 0, 1, 1, 2, 2]))[i]
        = (((return_label_batches 2 1 [0, 0, 1, 1, 2, 2]).take (i + 1)).map List.length).sum) ∧
      List.Pairwise (· ≤ ·) (headSizes 0 (return_label_batches 2 1 [0, 0, 1, 1, 2, 2])) ∧
      (∀ x ∈ headSizes 0 (return_label_batches 2 1 [0, 0, 1, 1, 2, 2]), x ≤ 3) ∧
      (∀ classifiers : List (ℚ → ℚ), classifiers.length = 3 →
        ∀ x ∈ headSizes 0 (return_label_batches 2 1 [0, 0, 1, 1, 2, 2]), ∀ f : ℚ,
          ∃ out, fsclModel_forward classifiers x f = some out ∧ out.length = x) ∧
      (∀ classifiers : List (ℚ → ℚ), ∀ t : Nat, ∀ f : ℚ,
        (omlModel_forward classifiers t f).length = classifiers.length) :=
  C3_head_size_invariant 2 1 3 [0, 0, 1, 1, 2, 2] (by decide) (by decide) (by decide)
    (Or.inr (by decide)) (by decide)

/-! ### Claim C9 -/

/-- C9: when the number of unique classes equals `n_classes_start` exactly —
an input the external interface contract allows — `return_label_batches`
appends an empty trailing class batch (`total_additions` is forced to 1), the
`return_indexes` call on that empty class batch fails (`torch.concat` of an
empty list of index tensors), and so the final-query data plumbing of
`FSCL.meta_learn` / `OML.meta_learn` raises instead of completing. -/
theorem C9_empty_batch_failure (n_start n_add : Nat) (labels : List Int)
    (hns : 1 ≤ n_start) (hna : 1 ≤ n_add)
    (hu : (sortedUnique labels).length = n_start) :
    return_label_batches n_start n_add labels = [sortedUnique labels, []] ∧
      return_indexes labels [] = none ∧
      fscl_query_selection n_start n_add labels = none := by
  have hb := return_label_batches_trailing_empty n_start n_add labels hns hu
  refine ⟨hb, rfl, ?_⟩
  have hUne : sortedUnique labels ≠ [] := by
    intro h
    rw [h] at hu
    simp at hu
    omega
  obtain ⟨c, rest, hcr⟩ := List.exists_cons_of_ne_nil hUne
  unfold fscl_query_selection
  rw [hb, hcr]
  simp [collectQueries, batchQueryLabels, return_indexes]

/-- C9, witness: episode `[0, 0, 1, 1]` with `n_classes_start = 2`,
`n_class_additions = 2`. -/
theorem C9_empty_batch_witness :
    return_label_batches 2 2 [0, 0, 1, 1] = [sortedUnique [0, 0, 1, 1], []] ∧
      return_indexes [0, 0, 1, 1] [] = none ∧
      fscl_query_selection 2 2 [0, 0, 1, 1] = none :=
  C9_empty_batch_failure 2 2 [0, 0, 1, 1] (by decide) (by decide) (by decide)

/-! ### The interleaved support/query split -/

theorem list_map_congr {f g : α → β} :
    ∀ l : List α, (∀ a ∈ l, f a = g a) → l.map f = l.map g
  | [], _ => rfl
  | x :: xs, h => by
    simp only [List.map_cons]
    rw [h x (List.mem_cons_self x xs),
      list_map_congr xs (fun a ha => h a (List.mem_cons_of_mem x ha))]

theorem list_sum_zero : ∀ l : List Nat, (∀ x ∈ l, x = 0) → l.sum = 0
  | [], _ => rfl
  | x :: xs, h => by
    simp only [List.sum_cons]
    rw [h x (List.mem_cons_self x xs),
      list_sum_zero xs (fun a ha => h a (List.mem_cons_of_mem x ha))]

theorem positionsOf_map_getD (labels : List Int) (c : Int) :
    (positionsOf labels c).map (fun i => labels.getD i 0)
      = List.replicate (labels.count c) c := by
  rw [← positionsOf_length labels c]
  exact map_eq_replicate_of_mem (positionsOf_getD labels c)

theorem takeEvens_positions_map (labels : List Int) (c : Int) (m : Nat)
    (hc : labels.count c = m) (h2 : m % 2 = 0) :
    (takeEvens (positionsOf labels c)).map (fun i => labels.getD i 0)
      = List.replicate (m / 2) c := by
  have hlen : (takeEvens (positionsOf labels c)).length = m / 2 := by
    rw [takeEvens_length, positionsOf_length, hc]
    omega
  rw [← hlen]
  exact map_eq_replicate_of_mem
    (fun i hi => positionsOf_getD labels c i (takeEvens_subset _ i hi))

theorem takeOdds_positions_map (labels : List Int) (c : Int) (m : Nat)
    (hc : labels.count c = m) (h2 : m % 2 = 0) :
    (takeOdds (positionsOf labels c)).map (fun i => labels.getD i 0)
      = List.replicate (m / 2) c := by
  have hlen : (takeOdds (positionsOf labels c)).length = m / 2 := by
    rw [takeOdds_length, positionsOf_length, hc]
  rw [← hlen]
  exact map_eq_replicate_of_mem
    (fun i hi => positionsOf_getD labels c i (takeOdds_subset _ i hi))

/-- Work-horse: on an episode where every class of `cs` has exactly `m`
examples (`m` even), `return_indexes` succeeds and `split_batch` of the
reordered labels yields as support half and as query half one copy of
`m / 2` replicas of each class of `cs`, in order. -/
theorem return_indexes_split (labels : List Int) (cs : List Int) (m : Nat)
    (hne : cs ≠ []) (hm : ∀ c ∈ cs, labels.count c = m) (h2 : m % 2 = 0) :
    ∃ idx, return_indexes labels cs = some idx ∧
      (split_batch (idx.map (fun i => labels.getD i 0))).1
        = (cs.map (fun c => List.replicate (m / 2) c)).flatten ∧
      (split_batch (idx.map (fun i => labels.getD i 0))).2
        = (cs.map (fun c => List.replicate (m / 2) c)).flatten := by
  obtain ⟨c0, rest, rfl⟩ := List.exists_cons_of_ne_nil hne
  have hruns : ∀ r ∈ (c0 :: rest).map (positionsOf labels), r.length % 2 = 0 := by
    intro r hr
    obtain ⟨c, hc, rfl⟩ := List.mem_map.mp hr
    rw [positionsOf_length, hm c hc]
    exact h2
  have hev : (takeEvens (((c0 :: rest).map (positionsOf labels)).flatten)).map
      (fun i => labels.getD i 0)
      = ((c0 :: rest).map (fun c => List.replicate (m / 2) c)).flatten := by
    rw [takeEvens_flatten _ hruns, List.map_flatten, List.map_map, List.map_map]
    congr 1
    apply list_map_congr
    intro c hc
    simp only [Function.comp]
    exact takeEvens_positions_map labels c m (hm c hc) h2
  have hod : (takeOdds (((c0 :: rest).map (positionsOf labels)).flatten)).map
      (fun i => labels.getD i 0)
      = ((c0 :: rest).map (fun c => List.replicate (m / 2) c)).flatten := by
    rw [takeOdds_flatten _ hruns, List.map_flatten, List.map_map, List.map_map]
    congr 1
    apply list_map_congr
    intro c hc
    simp only [Function.comp]
    exact takeOdds_positions_map labels c m (hm c hc) h2
  have hmap : ((takeEvens (((c0 :: rest).map (positionsOf labels)).flatten)
      ++ takeOdds (((c0 :: rest).map (positionsOf labels)).flatten)).map
        (fun i => labels.getD i 0))
      = ((c0 :: rest).map (fun c => List.replicate (m / 2) c)).flatten
        ++ ((c0 :: rest).map (fun c => List.replicate (m / 2) c)).flatten := by
    rw [List.map_append, hev, hod]
  have hsplit1 : ∀ R : List Int, (split_batch (R ++ R)).1 = R := by
    intro R
    simp only [split_batch, List.length_append]
    rw [show (R.length + R.length + 1) / 2 = R.length by omega]
    exact List.take_left R R
  have hsplit2 : ∀ R : List Int, (split_batch (R ++ R)).2 = R := by
    intro R
    simp only [split_batch, List.length_append]
    rw [show (R.length + R.length + 1) / 2 = R.length by omega]
    exact List.drop_left R R
  refine ⟨_, rfl, ?_, ?_⟩
  · rw [hmap]
    exact hsplit1 _
  · rw [hmap]
    exact hsplit2 _

/-! ### Claim C6 -/

/-- C6: for an episode in which every class present has the same example
count `m` with `m` divisible by 2, splitting the sequence reordered by
`return_indexes` at the midpoint with `split_batch` yields a support half and
a query half that each contain exactly `m / 2` examples of every class. -/
theorem C6_indexer_split (labels : List Int) (m : Nat)
    (hlne : labels ≠ [])
    (hm : ∀ c ∈ sortedUnique labels, labels.count c = m)
    (h2 : m % 2 = 0) :
    ∃ idx, return_indexes labels (sortedUnique labels) = some idx ∧
      ∀ c ∈ sortedUnique labels,
        ((split_batch (idx.map (fun i => labels.getD i 0))).1).count c = m / 2 ∧
        ((split_batch (idx.map (fun i => labels.getD i 0))).2).count c = m / 2 := by
  have hUne : sortedUnique labels ≠ [] := fun h => hlne (sortedUnique_eq_nil_iff.mp h)
  obtain ⟨idx, hidx, h1, hq⟩ := return_indexes_split labels (sortedUnique labels) m hUne hm h2
  refine ⟨idx, hidx, ?_⟩
  intro c hc
  have hcnt1 : (sortedUnique labels).count c = 1 :=
    List.count_eq_one_of_mem (sortedUnique_nodup labels) hc
  constructor
  · rw [h1, count_flatten_replicate, hcnt1, Nat.mul_one]
  · rw [hq, count_flatten_replicate, hcnt1, Nat.mul_one]

/-- C6, witness: episode `[0, 1, 0, 1]` with both classes of count 2. -/
theorem C6_indexer_split_witness :
    ∃ idx, return_indexes [0, 1, 0, 1] (sortedUnique [0, 1, 0, 1]) = some idx ∧
      ∀ c ∈ sortedUnique [0, 1, 0, 1],
        ((split_batch (idx.map (fun i => ([0, 1, 0, 1] : List Int).getD i 0))).1).count c
          = 2 / 2 ∧
        ((split_batch (idx.map (fun i => ([0, 1, 0, 1] : List Int).getD i 0))).2).count c
          = 2 / 2 :=
  C6_indexer_split [0, 1, 0, 1] 2 (by decide) (by decide) (by decide)

/-! ### Query collection across class batches -/

theorem batchQueryLabels_eq (labels : List Int) (b : List Int) (m : Nat)
    (hb : b ≠ []) (hm : ∀ c ∈ b, labels.count c = m) (h2 : m % 2 = 0) :
    batchQueryLabels labels b
      = some ((b.map (fun c => List.replicate (m / 2) c)).flatten) := by
  obtain ⟨idx, hidx, h1, hq⟩ := return_indexes_split labels b m hb hm h2
  unfold batchQueryLabels
  rw [hidx, Option.map_some']
  exact congrArg some hq

theorem collectQueries_spec (labels : List Int) (m : Nat) (h2 : m % 2 = 0) :
    ∀ bs : List (List Int),
      (∀ b ∈ bs, b ≠ [] ∧ b.Nodup ∧ ∀ c ∈ b, labels.count c = m) →
      ∃ ql, collectQueries labels bs = some ql ∧
        (∀ c : Int, ql.count c = (bs.map (fun b => if c ∈ b then m / 2 else 0)).sum) ∧
        (∀ x ∈ ql, ∃ b ∈ bs, x ∈ b)
  | [], _ => ⟨[], rfl, by simp, by simp⟩
  | b :: bs, h => by
    obtain ⟨hbne, hbnd, hbm⟩ := h b (List.mem_cons_self b bs)
    obtain ⟨ql, hql, hcount, hmem⟩ :=
      collectQueries_spec labels m h2 bs (fun s hs => h s (List.mem_cons_of_mem b hs))
    have hq := batchQueryLabels_eq labels b m hbne hbm h2
    refine ⟨(b.map (fun c => List.replicate (m / 2) c)).flatten ++ ql, ?_, ?_, ?_⟩
    · simp only [collectQueries]
      rw [hq, hql]
    · intro c
      rw [List.count_append, count_flatten_replicate, hcount c]
      simp only [List.map_cons, List.sum_cons]
      by_cases hc : c ∈ b
      · rw [if_pos hc, List.count_eq_one_of_mem hbnd hc, Nat.mul_one]
      · rw [if_neg hc, List.count_eq_zero.mpr hc, Nat.mul_zero]
    · intro x hx
      rcases List.mem_append.mp hx with hx | hx
      · rcases List.mem_flatten.mp hx with ⟨l, hl, hxl⟩
        obtain ⟨d, hd, rfl⟩ := List.mem_map.mp hl
        rcases List.mem_replicate.mp hxl with ⟨-, rfl⟩
        exact ⟨b, List.mem_cons_self b bs, hd⟩
      · obtain ⟨s, hs, hxs⟩ := hmem x hx
        exact ⟨s, List.mem_cons_of_mem b hs, hxs⟩

theorem sum_if_not_mem (k : Nat) (c : Int) (bs : List (List Int))
    (h : ∀ b ∈ bs, c ∉ b) :
    (bs.map (fun b => if c ∈ b then k else 0)).sum = 0 := by
  apply list_sum_zero
  intro x hx
  obtain ⟨b, hb, rfl⟩ := List.mem_map.mp hx
  exact if_neg (h b hb)

theorem sum_if_mem_eq (k : Nat) (c : Int) :
    ∀ (bs : List (List Int)), List.Pairwise List.Disjoint bs →
      ∀ b0 ∈ bs, c ∈ b0 →
      (bs.map (fun b => if c ∈ b then k else 0)).sum = k
  | [], _, b0, h, _ => by simp at h
  | b :: bs, hp, b0, hb0, hc => by
    simp only [List.map_cons, List.sum_cons]
    rcases List.mem_cons.mp hb0 with hb | hb
    · subst hb
      have hz : ∀ s ∈ bs, c ∉ s := by
        intro s hs hcs
        exact (List.pairwise_cons.mp hp).1 s hs hc hcs
      rw [if_pos hc, sum_if_not_mem k c bs hz]
      omega
    · have hcb : c ∉ b := fun hcb => (List.pairwise_cons.mp hp).1 b0 hb hcb hc
      rw [if_neg hcb,
        sum_if_mem_eq k c bs (List.pairwise_cons.mp hp).2 b0 hb hc]
      omega

theorem count_flatten_replicate_fun (F : Int → Nat) (c : Int) :
    ∀ b : List Int, b.Nodup →
      ((b.map (fun d => List.replicate (F d) d)).flatten).count c
        = if c ∈ b then F c else 0
  | [], _ => by simp
  | d :: b, hnd => by
    simp only [List.map_cons, List.flatten_cons, List.count_append]
    rw [count_flatten_replicate_fun F c b (List.nodup_cons.mp hnd).2]
    by_cases hcd : c = d
    · subst hcd
      have hcb : c ∉ b := (List.nodup_cons.mp hnd).1
      rw [if_neg hcb, if_pos (List.mem_cons_self c b), List.count_replicate]
      simp
    · rw [List.count_replicate, if_neg (by simpa using Ne.symm hcd)]
      have hmc : (c ∈ d :: b) ↔ (c ∈ b) := by
        simp [List.mem_cons, hcd]
      by_cases hcb : c ∈ b
      · rw [if_pos hcb, if_pos (hmc.mpr hcb)]
        omega
      · rw [if_neg hcb, if_neg (fun hx => hcb (hmc.mp hx))]

/-- The final testing selection keeps, for every class of `query_labels`,
`min 5 (count)` of its examples, and covers exactly the classes of
`query_labels`. -/
theorem testingSelectionLabels_spec (ql : List Int) (hne : ql ≠ []) :
    ∃ sel, testingSelectionLabels ql = some sel ∧
      (∀ c : Int, sel.count c = if c ∈ ql then min 5 (ql.count c) else 0) ∧
      (∀ x : Int, x ∈ sel ↔ x ∈ ql) := by
  have hUne : sortedUnique ql ≠ [] := fun h => hne (sortedUnique_eq_nil_iff.mp h)
  obtain ⟨u0, urest, hcr⟩ := List.exists_cons_of_ne_nil hUne
  have hsel : testingSelectionLabels ql = some (((sortedUnique ql).map
      (fun c => ((positionsOf ql c).take 5).map (fun i => ql.getD i 0))).flatten) := by
    unfold testingSelectionLabels
    rw [hcr]
  have hgroup : ∀ c : Int, ((positionsOf ql c).take 5).map (fun i => ql.getD i 0)
      = List.replicate (min 5 (ql.count c)) c := by
    intro c
    have hlen : ((positionsOf ql c).take 5).length = min 5 (ql.count c) := by
      rw [List.length_take, positionsOf_length]
    rw [← hlen]
    refine map_eq_replicate_of_mem ?_
    intro i hi
    exact positionsOf_getD ql c i (List.mem_of_mem_take hi)
  have hsel2 : testingSelectionLabels ql = some (((sortedUnique ql).map
      (fun c => List.replicate (min 5 (ql.count c)) c)).flatten) := by
    rw [hsel]
    congr 1
    exact congrArg List.flatten (list_map_congr _ (fun c _ => hgroup c))
  have hcountsel : ∀ c : Int,
      (((sortedUnique ql).map (fun c => List.replicate (min 5 (ql.count c)) c)).flatten).count c
        = if c ∈ ql then min 5 (ql.count c) else 0 := by
    intro c
    rw [count_flatten_replicate_fun (fun d => min 5 (ql.count d)) c
      (sortedUnique ql) (sortedUnique_nodup ql)]
    by_cases hc : c ∈ ql
    · rw [if_pos (mem_sortedUnique.mpr hc), if_pos hc]
    · rw [if_neg (fun hx => hc (mem_sortedUnique.mp hx)), if_neg hc]
  refine ⟨_, hsel2, hcountsel, ?_⟩
  intro x
  rw [← List.count_pos_iff, hcountsel x]
  by_cases hx : x ∈ ql
  · rw [if_pos hx]
    have : 0 < ql.count x := List.count_pos_iff.mpr hx
    constructor
    · intro _; exact hx
    · intro _; omega
  · rw [if_neg hx]
    constructor
    · intro h; omega
    · intro h; exact absurd h hx

/-! ### Claim C7 -/

/-- C7, counterexample: the episode `[0, 0, 1, 1, 2, 2]` with
`n_classes_start = 3` has exactly `n_classes_start` distinct classes, each of
even count 2, which the input contract allows — yet the final-query data
plumbing of `FSCL.meta_learn` / `OML.meta_learn` fails (the trailing empty
class batch makes `return_indexes` raise), so no final query evaluation is
performed at all, refuting the claim as stated. -/
theorem C7_final_query_counterexample :
    (∀ c ∈ sortedUnique [0, 0, 1, 1, 2, 2], ([0, 0, 1, 1, 2, 2] : List Int).count c = 2) ∧
      3 ≤ (sortedUnique [0, 0, 1, 1, 2, 2]).length ∧
      fscl_query_selection 3 1 [0, 0, 1, 1, 2, 2] = none := by decide

/-- C7 (amended): for a well-formed episode — consecutive classes `0..u-1`
with `u ≥ n_classes_start + n_class_additions`, every class with the same
even example count `m ≥ 1` — the final query evaluation of `FSCL.meta_learn`
and `OML.meta_learn` is performed over every class seen during the episode,
and for each such class at most 5 query examples are selected: exactly
`min 5 (m/2)` of its `m/2` query examples, so a class with fewer than 5 query
examples contributes all of them. -/
theorem C7_final_query_selection (n_start n_add : Nat) (labels : List Int) (m : Nat)
    (hns : 1 ≤ n_start) (hna : 1 ≤ n_add)
    (hU : sortedUnique labels = (List.range (sortedUnique labels).length).map Int.ofNat)
    (hcnt : n_start + n_add ≤ (sortedUnique labels).length)
    (hm : ∀ c ∈ sortedUnique labels, labels.count c = m)
    (h2 : m % 2 = 0) (hm1 : 1 ≤ m) :
    ∃ sel, fscl_query_selection n_start n_add labels = some sel ∧
      (∀ c : Int, c ∈ sel ↔ c ∈ labels) ∧
      (∀ c ∈ sel, sel.count c = min 5 (labels.count c / 2)) ∧
      (∀ c : Int, sel.count c ≤ 5) := by
  obtain ⟨hf, hh, hne⟩ := return_label_batches_spec n_start n_add labels hns hna hU hcnt
  have hm2 : 2 ≤ m := by omega
  have hhalf : 1 ≤ m / 2 := by omega
  have hflatnd : (return_label_batches n_start n_add labels).flatten.Nodup := by
    rw [hf]
    exact sortedUnique_nodup labels
  have hbnd := List.nodup_flatten.mp hflatnd
  have hsub : ∀ b ∈ return_label_batches n_start n_add labels, ∀ c ∈ b,
      c ∈ sortedUnique labels := by
    intro b hb c hc
    rw [← hf]
    exact List.mem_flatten.mpr ⟨b, hb, hc⟩
  obtain ⟨ql, hcq, hqlcount, hqlmem⟩ := collectQueries_spec labels m h2
    (return_label_batches n_start n_add labels)
    (fun b hb => ⟨hne b hb, hbnd.1 b hb, fun c hc => hm c (hsub b hb c hc)⟩)
  have hqlcountU : ∀ c ∈ sortedUnique labels, ql.count c = m / 2 := by
    intro c hc
    rw [hqlcount c]
    have hcf : c ∈ (return_label_batches n_start n_add labels).flatten := by
      rw [hf]; exact hc
    obtain ⟨b0, hb0, hcb0⟩ := List.mem_flatten.mp hcf
    exact sum_if_mem_eq (m / 2) c _ hbnd.2 b0 hb0 hcb0
  have hqlmem_iff : ∀ x : Int, x ∈ ql ↔ x ∈ labels := by
    intro x
    constructor
    · intro hx
      obtain ⟨b, hb, hxb⟩ := hqlmem x hx
      exact mem_sortedUnique.mp (hsub b hb x hxb)
    · intro hx
      have hxU : x ∈ sortedUnique labels := mem_sortedUnique.mpr hx
      have : 0 < ql.count x := by
        rw [hqlcountU x hxU]
        omega
      exact List.count_pos_iff.mp this
  have hqlne : ql ≠ [] := by
    have hlne : labels ≠ [] := by
      intro h
      rw [h] at hcnt
      simp [sortedUnique] at hcnt
      omega
    obtain ⟨x, xs, hx⟩ := List.exists_cons_of_ne_nil hlne
    have : x ∈ ql := (hqlmem_iff x).mpr (by rw [hx]; exact List.mem_cons_self x xs)
    exact List.ne_nil_of_mem this
  obtain ⟨sel, hsel, hselcount, hselmem⟩ := testingSelectionLabels_spec ql hqlne
  refine ⟨sel, ?_, ?_, ?_, ?_⟩
  · simp only [fscl_query_selection]
    rw [hcq]
    exact hsel
  · intro c
    rw [hselmem c, hqlmem_iff c]
  · intro c hc
    have hcql : c ∈ ql := (hselmem c).mp hc
    have hcU : c ∈ sortedUnique labels := mem_sortedUnique.mpr ((hqlmem_iff c).mp hcql)
    rw [hselcount c, if_pos hcql, hqlcountU c hcU, hm c hcU]
  · intro c
    rw [hselcount c]
    by_cases hc : c ∈ ql
    · rw [if_pos hc]
      omega
    · rw [if_neg hc]
      omega

/-- C7, witness: episode `[0, 0, 1, 1, 2, 2]` with `n_classes_start = 2`,
`n_class_additions = 1`, every class of count 2. -/
theorem C7_final_query_witness :
    ∃ sel, fscl_query_selection 2 1 [0, 0, 1, 1, 2, 2] = some sel ∧
      (∀ c : Int, c ∈ sel ↔ c ∈ ([0, 0, 1, 1, 2, 2] : List Int)) ∧
      (∀ c ∈ sel, sel.count c = min 5 (([0, 0, 1, 1, 2, 2] : List Int).count c / 2)) ∧
      (∀ c : Int, sel.count c ≤ 5) :=
  C7_final_query_selection 2 1 [0, 0, 1, 1, 2, 2] 2 (by decide) (by decide) (by decide)
    (by decide) (by decide) (by decide) (by decide)

/-! ### Claim C2 -/

theorem applyConverter_eq_map (conv : Int → Option Int) (f : Int → Int) :
    ∀ l : List Int, (∀ x ∈ l, conv x = some (f x)) →
      applyConverter conv l = some (l.map f)
  | [], _ => rfl
  | x :: xs, h => by
    simp only [applyConverter, List.map_cons]
    rw [h x (List.mem_cons_self x xs),
      applyConverter_eq_map conv f xs (fun y hy => h y (List.mem_cons_of_mem x hy))]

/-- C2, counterexample: the label sequence `[0, 2]` — two distinct labels, a
value set closed under any remapping — makes `return_random_labels` raise a
`KeyError` even under a valid `torch.randperm(2)` draw, because the converter
dict is keyed by the dense positions `0..u-1` and the label value 2 is not a
key.  No remapped sequence is produced, refuting the claim for this input. -/
theorem C2_random_labels_counterexample :
    List.Perm [0, 1] (List.range (sortedUnique [0, 2]).length) ∧
      return_random_labels [0, 1] [0, 2] = none := by decide

/-- C2 (amended): for label sequences whose distinct values are exactly the
consecutive integers `0..u-1` (`u` the number of distinct labels), and for
every permutation `p` drawn by `torch.randperm(u)`, `return_random_labels`
produces a same-length sequence in which each distinct label is bijectively
remapped to a distinct value of the same label set: the set of output values
equals the set of input values, and two positions share an output value iff
they shared an input value. -/
theorem C2_random_labels_bijection (p : List Nat) (labels : List Int)
    (hU : sortedUnique labels = (List.range (sortedUnique labels).length).map Int.ofNat)
    (hp : List.Perm p (List.range (sortedUnique labels).length)) :
    ∃ out, return_random_labels p labels = some out ∧
      out.length = labels.length ∧
      (∀ x : Int, x ∈ out ↔ x ∈ labels) ∧
      (∀ i j : Nat, i < labels.length → j < labels.length →
        (out.getD i 0 = out.getD j 0 ↔ labels.getD i 0 = labels.getD j 0)) := by
  obtain ⟨u, hu⟩ : ∃ u, (sortedUnique labels).length = u := ⟨_, rfl⟩
  rw [hu] at hU hp
  have hplen : p.length = u := by
    have := hp.length_eq
    simpa using this
  have hpnd : p.Nodup := hp.nodup_iff.mpr (List.nodup_range u)
  have hpmem : ∀ k : Nat, k ∈ p ↔ k < u := by
    intro k
    rw [hp.mem_iff, List.mem_range]
  have hUgetD : ∀ j : Nat, j < u → (sortedUnique labels).getD j 0 = Int.ofNat j := by
    intro j hj
    rw [hU]
    have hjlen : j < ((List.range u).map Int.ofNat).length := by simpa using hj
    rw [List.getD_eq_getElem _ _ hjlen, List.getElem_map]
    congr 1
    exact List.getElem_range _ _
  have hlabval : ∀ v ∈ labels, ∃ k : Nat, k < u ∧ v = Int.ofNat k := by
    intro v hv
    have hvU : v ∈ (List.range u).map Int.ofNat := by
      rw [← hU]
      exact mem_sortedUnique.mpr hv
    obtain ⟨k, hk, rfl⟩ := List.mem_map.mp hvU
    exact ⟨k, List.mem_range.mp hk, rfl⟩
  have hconv : ∀ v ∈ labels,
      (if v < 0 then none
        else (p.map (fun i => (sortedUnique labels).getD i 0)).get? v.toNat)
      = some (Int.ofNat (p.getD v.toNat 0)) := by
    intro v hv
    obtain ⟨k, hk, rfl⟩ := hlabval v hv
    have hcast : Int.ofNat k = (k : Int) := rfl
    have hcond : ¬ (Int.ofNat k < 0) := by
      rw [hcast]
      omega
    rw [if_neg hcond]
    have htoNat : (Int.ofNat k).toNat = k := rfl
    rw [htoNat]
    have hkp : k < p.length := by omega
    have hklen : k < (p.map (fun i => (sortedUnique labels).getD i 0)).length := by
      simpa using hkp
    rw [List.get?_eq_get hklen]
    congr 1
    rw [List.get_eq_getElem, List.getElem_map]
    have hpklt : p[k] < u := (hpmem p[k]).mp (List.getElem_mem hkp)
    rw [hUgetD _ hpklt, List.getD_eq_getElem p 0 hkp]
  have happ := applyConverter_eq_map
    (fun v => if v < 0 then none
      else (p.map (fun i => (sortedUnique labels).getD i 0)).get? v.toNat)
    (fun v => Int.ofNat (p.getD v.toNat 0)) labels hconv
  refine ⟨labels.map (fun v => Int.ofNat (p.getD v.toNat 0)), ?_, by simp, ?_, ?_⟩
  · unfold return_random_labels
    exact happ
  · intro x
    constructor
    · intro hx
      obtain ⟨v, hv, rfl⟩ := List.mem_map.mp hx
      obtain ⟨k, hk, rfl⟩ := hlabval v hv
      have hkp : k < p.length := by omega
      have htoNat : (Int.ofNat k).toNat = k := rfl
      rw [htoNat]
      have hlt : p.getD k 0 < u := by
        rw [List.getD_eq_getElem p 0 hkp]
        exact (hpmem _).mp (List.getElem_mem hkp)
      apply mem_sortedUnique.mp
      rw [hU]
      exact List.mem_map.mpr ⟨p.getD k 0, List.mem_range.mpr hlt, rfl⟩
    · intro hx
      obtain ⟨j, hj, rfl⟩ := hlabval x hx
      have hjp : j ∈ p := (hpmem j).mpr hj
      obtain ⟨⟨k, hkp⟩, hpk⟩ := List.get_of_mem hjp
      have hku : k < u := by omega
      have hmemk : Int.ofNat k ∈ labels := by
        apply mem_sortedUnique.mp
        rw [hU]
        exact List.mem_map.mpr ⟨k, List.mem_range.mpr hku, rfl⟩
      refine List.mem_map.mpr ⟨Int.ofNat k, hmemk, ?_⟩
      have htoNat : (Int.ofNat k).toNat = k := rfl
      rw [htoNat]
      congr 1
      rw [List.getD_eq_getElem p 0 hkp, ← List.get_eq_getElem p ⟨k, hkp⟩]
      exact hpk
  · intro i j hi hj
    have hmap_len : labels.length = (labels.map
        (fun v => Int.ofNat (p.getD v.toNat 0))).length := by simp
    have hgi : (labels.map (fun v => Int.ofNat (p.getD v.toNat 0))).getD i 0
        = Int.ofNat (p.getD (labels.getD i 0).toNat 0) := by
      rw [List.getD_eq_getElem _ _ (hmap_len ▸ hi), List.getElem_map,
        List.getD_eq_getElem _ _ hi]
    have hgj : (labels.map (fun v => Int.ofNat (p.getD v.toNat 0))).getD j 0
        = Int.ofNat (p.getD (labels.getD j 0).toNat 0) := by
      rw [List.getD_eq_getElem _ _ (hmap_len ▸ hj), List.getElem_map,
        List.getD_eq_getElem _ _ hj]
    rw [hgi, hgj]
    have hmemi : labels.getD i 0 ∈ labels := by
      rw [List.getD_eq_getElem _ _ hi]
      exact List.getElem_mem hi
    have hmemj : labels.getD j 0 ∈ labels := by
      rw [List.getD_eq_getElem _ _ hj]
      exact List.getElem_mem hj
    obtain ⟨ki, hki, hvi⟩ := hlabval _ hmemi
    obtain ⟨kj, hkj, hvj⟩ := hlabval _ hmemj
    rw [hvi, hvj]
    have hkip : ki < p.length := by omega
    have hkjp : kj < p.length := by omega
    have htoNati : (Int.ofNat ki).toNat = ki := rfl
    have htoNatj : (Int.ofNat kj).toNat = kj := rfl
    rw [htoNati, htoNatj]
    constructor
    · intro hEq
      have h1 : p[ki] = p[kj] := by
        have h2 := Int.ofNat_inj.mp hEq
        rwa [List.getD_eq_getElem p 0 hkip, List.getD_eq_getElem p 0 hkjp] at h2
      have h3 : ki = kj := (hpnd.getElem_inj_iff).mp h1
      rw [h3]
    · intro hEq
      rw [Int.ofNat_inj.mp hEq]

/-- C2, witness: labels `[0, 1, 1]` under the permutation `[1, 0]`. -/
theorem C2_random_labels_witness :
    ∃ out, return_random_labels [1, 0] [0, 1, 1] = some out ∧
      out.length = ([0, 1, 1] : List Int).length ∧
      (∀ x : Int, x ∈ out ↔ x ∈ ([0, 1, 1] : List Int)) ∧
      (∀ i j : Nat, i < ([0, 1, 1] : List Int).length → j < ([0, 1, 1] : List Int).length →
        (out.getD i 0 = out.getD j 0
          ↔ ([0, 1, 1] : List Int).getD i 0 = ([0, 1, 1] : List Int).getD j 0)) :=
  C2_random_labels_bijection [1, 0] [0, 1, 1] (by decide) (by decide)

/-! ### Claim C4 -/

/-- C4: in `Reptile.meta_learn`, in training mode the stored parameters
equal `W0 + (W1 − W0) × L` elementwise, where `W0` is the parameter snapshot
taken before the inner loop, `W1` the post-inner-loop parameters, and `L` the
linearly decayed outer learning rate
`initial_lr * (1 - outer_steps / max_steps)`; in evaluation mode the stored
parameters after the call are identical to `W0`. -/
theorem C4_reptile_update (initial_lr : ℚ) (max_steps : Nat)
    (inner : List ℚ → List ℚ) (k : Nat) (s : ReptileState) (hms : 0 < max_steps) :
    (reptile_meta_learn true initial_lr max_steps inner k s).params
      = List.zipWith
          (fun o n => o + (n - o)
            * (initial_lr * (1 - (s.outer_steps : ℚ) / (max_steps : ℚ))))
          s.params (inner^[k] s.params) ∧
      (reptile_meta_learn false initial_lr max_steps inner k s).params = s.params := by
  constructor
  · rfl
  · rfl

/-- C4, witness: one parameter, `initial_lr = 1`, `max_steps = 1`, identity
inner step, zero inner iterations. -/
theorem C4_reptile_update_witness :
    (reptile_meta_learn true 1 1 id 0 ⟨[1], 0⟩).params
      = List.zipWith
          (fun o n => o + (n - o)
            * (1 * (1 - ((⟨[1], 0⟩ : ReptileState).outer_steps : ℚ) / ((1 : Nat) : ℚ))))
          (⟨[1], 0⟩ : ReptileState).params (id^[0] (⟨[1], 0⟩ : ReptileState).params) ∧
      (reptile_meta_learn false 1 1 id 0 ⟨[1], 0⟩).params
        = (⟨[1], 0⟩ : ReptileState).params :=
  C4_reptile_update 1 1 id 0 ⟨[1], 0⟩ (by decide)

/-! ### Claim C5 -/

/-- C5, counterexample: Reptile's inner loop runs `opt.step()` directly on
the persistent `self.model`; after 1 completed inner step of an episode the
stored parameters already differ from their value at entry (here entry
parameters `[0]`, one inner step adding 1 to each parameter).  Abandoning the
step at that point therefore does not leave the stored parameters equal to
their value at entry, refuting the claim for the Reptile variant. -/
theorem C5_abandonment_counterexample :
    reptile_inner_params (fun l => l.map (fun x => x + 1)) 1 [0] ≠ [0] := by
  simp [reptile_inner_params]

/-- C5 (amended): for the MAML-based variants (`VanillaMAML`, `FSCL`, `OML`)
the persistent model parameters are never mutated at any intermediate point
of `meta_learn`: every adaptation step acts on the clone only, so after any
number `t` of completed steps the persistent parameters equal their value at
entry.  (Reptile, by contrast, mutates the live model during its inner loop,
as the counterexample shows; only a completed eval-mode call restores them.) -/
theorem C5_clone_isolation (inner : List ℚ → List ℚ) (t : Nat) (p : List ℚ) :
    (clone_run inner t p).model = p := by
  induction t with
  | zero => rfl
  | succ n ih =>
    unfold clone_run at ih ⊢
    rw [Function.iterate_succ_apply']
    simpa [clone_adapt] using ih

/-! ### Claim C8 -/

/-- C8, counterexample: the way `training_step` invokes the base
`meta_learn` — with a batch argument — fails with a `TypeError` (arity
mismatch: the base definition takes only `self`), not with
`NotImplementedError` as the claim states. -/
theorem C8_base_meta_learn_counterexample :
    base_training_step = Except.error PyError.typeError ∧
      base_training_step ≠ Except.error PyError.notImplementedError := by
  refine ⟨rfl, fun h => ?_⟩
  exact absurd (Except.error.inj h) (by decide)

/-- C8 (amended): invoking `meta_learn` on the abstract base class
`GradientLearningBase` fails immediately with an error that signals a
programming error, for every input, and is never retried: a direct call
without arguments raises `NotImplementedError` from the method body, while a
call with a batch argument — the way `training_step` and `validation_step`
invoke it — raises `TypeError` (the definition takes only `self`). -/
theorem C8_base_meta_learn_contract :
    (∀ nargs : Nat, base_meta_learn nargs
        = Except.error (if nargs = 0 then PyError.notImplementedError
          else PyError.typeError)) ∧
      base_meta_learn 0 = Except.error PyError.notImplementedError ∧
      base_training_step = Except.error PyError.typeError ∧
      base_validation_step = Except.error PyError.typeError := by
  refine ⟨?_, rfl, rfl, rfl⟩
  intro nargs
  unfold base_meta_learn
  by_cases h : nargs = 0
  · rw [if_pos h, if_pos h]
  · rw [if_neg h, if_neg h]

/-! ### Claim C10 -/

/-- C10: every attempt to construct a `VanillaMAML` instance raises a
`NameError`: its `__init__` evaluates `l2l.algorithms.MAML(...)` but the
module binds only `MAML` (imported from `learn2learn.algorithms`), never
`l2l`, so the global name lookup fails before any instance exists — hence
`VanillaMAML.meta_learn` is unreachable through the public interface. -/
theorem C10_vanilla_maml_name_error :
    vanillaMAML_init = Except.error PyError.nameError := by rfl

